import Mathlib

/-!
Shallow embedding of the locally computable fragments of the STScI
"notebooks" tutorial repository (MAST / ScienceBetter notebooks), with
machine-checked statements of the specification's claims about them.

Python floats are modelled as exact rationals (ℚ); numpy arrays as
`List ℚ`; 2-D numpy arrays as `List (List ℚ)`.  Each definition is a
direct transcription of the corresponding notebook cell.
-/

/-- The whole-array polynomial `0.5392*(x-5.9)**2 + 0.05644*(x-5.9)**3`
assigned to `F` inside the loop of `FMpar`, applied to one element. -/
def polyF (t : ℚ) : ℚ := 0.5392 * (t - 5.9) ^ 2 + 0.05644 * (t - 5.9) ^ 3

/-- The Drude term `x**2/((x**2-xo**2)**2+x**2*gamma**2)` of `FMpar`,
applied to one element. -/
def Dterm (xo gamma t : ℚ) : ℚ := t ^ 2 / ((t ^ 2 - xo ^ 2) ^ 2 + t ^ 2 * gamma ^ 2)

/-- Transcription of `FMpar` from `Exploring_UV_extinction_curves_pt2_SOLUTION.ipynb`
(six-parameter version).  Transcribed line by line:
`F = np.zeros(len(x))`; then `for i in range(len(x)): if x[i] >= 5.9:
F = 0.5392*(x-5.9)**2+0.05644*(x-5.9)**3` — note that the loop body
assigns the WHOLE array expression to `F`, not `F[i]`;
`D = x**2/((x**2-xo**2)**2+x**2*gamma**2)`;
`k = C1 + C2*x + C3*D + C4*F` (elementwise). -/
def FMpar (x : List ℚ) (C1 C2 C3 C4 xo gamma : ℚ) : List ℚ :=
  let F := (List.range x.length).foldl
    (fun F i => if (5.9 : ℚ) ≤ x.getD i 0 then x.map polyF else F)
    (List.replicate x.length (0 : ℚ))
  let D := x.map (Dterm xo gamma)
  (List.range x.length).map
    (fun i => C1 + C2 * x.getD i 0 + C3 * D.getD i 0 + C4 * F.getD i 0)

/-- The pointwise Fitzpatrick–Massa evaluation that the specification
ascribes to `FMpar`: the `F` term is thresholded per element
(`F(x[i]) = 0` whenever `x[i] < 5.9`).  Stated from the spec's words for
comparison with the transcribed `FMpar`. -/
def FMpointwise (x : List ℚ) (C1 C2 C3 C4 xo gamma : ℚ) : List ℚ :=
  x.map (fun t =>
    C1 + C2 * t + C3 * Dterm xo gamma t +
      C4 * (if (5.9 : ℚ) ≤ t then polyF t else 0))

/-- Degree-1 least-squares fit through two sample points, the closed form
computed by `np.polyfit(np.array([x1,x2]), np.array([y1,y2]), 1)`:
slope `m = (n*Σxy - Σx*Σy)/(n*Σx² - (Σx)²)` with `n = 2`, intercept
`b = (Σy - m*Σx)/n`.  Returns `(m, b)`. -/
def polyfit1 (x1 x2 y1 y2 : ℚ) : ℚ × ℚ :=
  let m := (2 * (x1 * y1 + x2 * y2) - (x1 + x2) * (y1 + y2)) /
    (2 * (x1 ^ 2 + x2 ^ 2) - (x1 + x2) ^ 2)
  (m, ((y1 + y2) - m * (x1 + x2)) / 2)

/-- Transcription of `getImCoord` from the GALEX mosaicking notebook.  `imW`/`imH` stand
for `image.size[0]`/`image.size[1]` and `extW`/`extH` for
`extended_image.size[0]`/`extended_image.size[1]`.  Transcription:
`pixx = [-image.size[0]/2, extended_image.size[0]-image.size[0]/2]`,
`m_RA, b_RA = np.polyfit([RA1,RAf], pixx, 1)`,
`ImCoord_RA = m_RA*coord_RA+b_RA`, and symmetrically for Dec with
`pixy = [extended_image.size[1]-image.size[1]/2, -image.size[1]/2]`. -/
def getImCoord (coordRA coordDec RA1 RAf Dec1 Decf imW imH extW extH : ℚ) : ℚ × ℚ :=
  let mbRA := polyfit1 RA1 RAf (-imW / 2) (extW - imW / 2)
  let mbDec := polyfit1 Dec1 Decf (extH - imH / 2) (-imH / 2)
  (mbRA.1 * coordRA + mbRA.2, mbDec.1 * coordDec + mbDec.2)

/-- The affine map through the two points `(x1, y1)` and `(x2, y2)`,
evaluated at `t`: the unique line through them when `x1 ≠ x2`. -/
def lineThrough (x1 y1 x2 y2 t : ℚ) : ℚ := y1 + (y2 - y1) * (t - x1) / (x2 - x1)

/-- Transcription of `RA1_mbm15[i] = crval1 - (crpix1-1)*cdelt1/np.cos(crval2*(2*np.pi/360.0))`
from the GALEX mosaicking notebook.  The transcendental factor
`np.cos(crval2*(2*np.pi/360.0))` is a single scalar computed once from
`crval2`; it is passed in as the explicit parameter `cosv`. -/
def RA1_of (crval1 crpix1 cdelt1 cosv : ℚ) : ℚ :=
  crval1 - (crpix1 - 1) * cdelt1 / cosv

/-- Transcription of `RAf_mbm15[i] = crval1 + (naxis1+1-crpix1)*cdelt1/np.cos(crval2*(2*np.pi/360.0))`. -/
def RAf_of (crval1 crpix1 cdelt1 naxis1 cosv : ℚ) : ℚ :=
  crval1 + (naxis1 + 1 - crpix1) * cdelt1 / cosv

/-- Transcription of `Dec1_mbm15[i] = crval2 - (crpix2-1)*cdelt2`. -/
def Dec1_of (crval2 crpix2 cdelt2 : ℚ) : ℚ :=
  crval2 - (crpix2 - 1) * cdelt2

/-- Transcription of `Decf_mbm15[i] = crval2 + (naxis2+1-crpix2)*cdelt2`. -/
def Decf_of (crval2 crpix2 cdelt2 naxis2 : ℚ) : ℚ :=
  crval2 + (naxis2 + 1 - crpix2) * cdelt2

/-- A Python/numpy floating-point cell value: either NaN or a finite
number (finite values modelled as exact rationals). -/
inductive PyFloat where
  | nan : PyFloat
  | val : ℚ → PyFloat
deriving DecidableEq

/-- Model of `np.isnan` on one cell. -/
def isnan : PyFloat → Bool
  | .nan => true
  | .val _ => false

/-- The elementwise effect of the masked assignment
`fits_img[np.isnan(fits_img)] = 0.0` on one cell: a NaN cell becomes
`0.0`, any other cell is untouched. -/
def scrub1 (v : PyFloat) : PyFloat := if isnan v then PyFloat.val 0 else v

/-- Transcription of `fits_img[np.isnan(fits_img)] = 0.0` from the PS1 image notebook,
applied to a 2-D array: every cell where `np.isnan` holds is set to
`0.0`, all other cells keep their value. -/
def scrubNaN (img : List (List PyFloat)) : List (List PyFloat) :=
  img.map (fun row => row.map scrub1)

/-- Model of `np.savetxt(filename, array)` for a 1-D array.  Modelled with exact
serialization (as the claim directs): the written text file is the list
of lines, one value per line, each line recording the value exactly as a
numerator/denominator pair. -/
def np_savetxt (array : List ℚ) : List (Int × ℕ) :=
  array.map (fun q => (q.num, q.den))

/-- Model of `np.loadtxt(filename)`: parses each line of the text file back into
the number it denotes. -/
def np_loadtxt (file : List (Int × ℕ)) : List ℚ :=
  file.map (fun p => (p.1 : ℚ) / (p.2 : ℚ))

/-- Transcription of `saveArray` from the UV-spectra download notebook: writes `array`
with `np.savetxt(filename, array)` and immediately re-reads the file
with `np.loadtxt(filename)` into `content` (the prints are display
only).  Returns `(content, array as left after the call)`; the source
never writes to `array`, so the second component is `array` itself. -/
def saveArray (array : List ℚ) : List ℚ × List ℚ :=
  (np_loadtxt (np_savetxt array), array)

/-- Python `filename.split(sep)` for a one-character separator, on
strings modelled as `List Char`: splits at every occurrence of `sep`,
keeping empty fragments (`"".split(c) == [""]`). -/
def pysplit (sep : Char) : List Char → List (List Char)
  | [] => [[]]
  | c :: rest =>
    match pysplit sep rest with
    | [] => [[]]
    | g :: gs => if c = sep then [] :: g :: gs else (c :: g) :: gs

/-- Python `str.join(sep, parts)` for a one-character separator:
concatenates the fragments with `sep` between consecutive ones. -/
def pyjoin (sep : Char) : List (List Char) → List Char
  | [] => []
  | [g] => g
  | g :: g2 :: gs => g ++ sep :: pyjoin sep (g2 :: gs)

/-- The prefix of a string up to but excluding its last occurrence of
`sep` (the spec phrase the claim compares against). -/
def upToLastSep (sep : Char) (s : List Char) : List Char :=
  ((s.reverse.dropWhile (fun c => decide (c ≠ sep))).drop 1).reverse

/-- The sort key astropy uses for the masked `qmin` column: a masked
entry (`none`) sorts after every measured value. -/
def qkey : Option ℚ → WithTop ℚ
  | none => ⊤
  | some q => (q : WithTop ℚ)

/-- Transcription of `tbl.sort('qmin')` from `find_eclipse_candidates.ipynb`.  A table row
is modelled as a pair of its (possibly masked) `qmin` cell and the rest
of the row; astropy sorts by the `qmin` column, placing masked entries
last. -/
def sortByQmin {α : Type} (rows : List (Option ℚ × α)) : List (Option ℚ × α) :=
  rows.mergeSort (fun a b => decide (qkey a.1 ≤ qkey b.1))

/-- The candidate-table pipeline
`tbl.sort('qmin'); tbl.reverse(); tbl = tbl[~tbl['qmin'].mask]`. -/
def eclipsePipeline {α : Type} (rows : List (Option ℚ × α)) : List (Option ℚ × α) :=
  ((sortByQmin rows).reverse).filter (fun r => r.1.isSome)

/-- Model of `np.where(l < 0)[0]`: the indices of the strictly negative entries
of a 1-D array, in increasing order. -/
def np_where_neg (l : List ℚ) : List ℕ :=
  (List.range l.length).filter (fun i => decide (l.getD i 0 < 0))

/-- Model of `np.delete(l, idxs)`: the entries of `l` whose index is not listed
in `idxs`, in their original order. -/
def np_delete (l : List ℚ) (idxs : List ℕ) : List ℚ :=
  ((List.range l.length).filter (fun i => decide (i ∉ idxs))).map (fun i => l.getD i 0)

/-- Transcription of `changeNaN` from the UV-extinction notebook, transcribed:
`prob = np.where(fluxx < 0)[0]`, delete `prob` from all four arrays;
then `prob2 = np.where(fluxx1 < 0)[0]` (on the already-filtered
`fluxx1`), delete `prob2` from all four; return the quadruple. -/
def changeNaN (wavv fluxx wavv1 fluxx1 : List ℚ) :
    List ℚ × List ℚ × List ℚ × List ℚ :=
  let prob := np_where_neg fluxx
  let wavvA := np_delete wavv prob
  let fluxxA := np_delete fluxx prob
  let wavv1A := np_delete wavv1 prob
  let fluxx1A := np_delete fluxx1 prob
  let prob2 := np_where_neg fluxx1A
  (np_delete wavvA prob2, np_delete fluxxA prob2,
   np_delete wavv1A prob2, np_delete fluxx1A prob2)

/-- The row set the claim describes: the four input arrays zipped into
rows, keeping exactly the rows whose two flux entries are both
non-negative, in their original order. -/
def keptRows (wavv fluxx wavv1 fluxx1 : List ℚ) : List (ℚ × ℚ × ℚ × ℚ) :=
  (wavv.zip (fluxx.zip (wavv1.zip fluxx1))).filter
    (fun r => decide (0 ≤ r.2.1) && decide (0 ≤ r.2.2.2))

/-- Model of `np.zeros((r, c))`: an `r`-by-`c` array of zeros. -/
def np_zeros (r c : ℕ) : List (List ℚ) :=
  List.replicate r (List.replicate c 0)

/-- Model of `np.append(a, b, axis=0)`: stacks the rows of `b` below those of `a`. -/
def np_append_rows (a b : List (List ℚ)) : List (List ℚ) := a ++ b

/-- Model of `np.insert(a, pos, vals, axis=0)` with a block of rows: the rows of
`vals` are inserted before row `pos` of `a`. -/
def np_insert_rows (a : List (List ℚ)) (pos : ℕ) (vals : List (List ℚ)) :
    List (List ℚ) :=
  a.take pos ++ vals ++ a.drop pos

/-- Model of `np.insert(a, pos, vals, axis=1)` with a block of values: `vals`
holds one entry-row per inserted column (numpy broadcasts `vals[k]`
down inserted column `k`), so row `j` of the result is row `j` of `a`
with the entries `vals[0][j], vals[1][j], …` inserted at column `pos`. -/
def np_insert_cols (a : List (List ℚ)) (pos : ℕ) (vals : List (List ℚ)) :
    List (List ℚ) :=
  List.zipWith
    (fun j row => row.take pos ++ vals.map (fun v => v.getD j 0) ++ row.drop pos)
    (List.range a.length) a

/-- The expanded-canvas construction from the GALEX mosaicking notebook:
`w = len(image)`;
`new_image = np.append(image, np.zeros((w,w)), axis=0)`;
`new_image = np.insert(new_image, 0, np.zeros((w,w)), axis=0)`;
`new_zeros2 = np.zeros((w,3*w))`;
`new_image = np.insert(new_image, 0, new_zeros2, axis=1)`;
`new_image = np.insert(new_image, 2*w, new_zeros2, axis=1)`. -/
def expandImage (image : List (List ℚ)) : List (List ℚ) :=
  let w := image.length
  let new_image1 := np_append_rows image (np_zeros w w)
  let new_image2 := np_insert_rows new_image1 0 (np_zeros w w)
  let new_image3 := np_insert_cols new_image2 0 (np_zeros w (3 * w))
  np_insert_cols new_image3 (2 * w) (np_zeros w (3 * w))

/-- Claim C1.  The claim says `FMpar` applies the threshold condition of
the Fitzpatrick–Massa `F` term pointwise (`F(x[i]) = 0` when
`x[i] < 5.9`).  It does not: because the loop body assigns the whole
array expression to `F`, the presence of ANY element `≥ 5.9` applies the
cubic to EVERY element.  At `x = [1, 6]` with `C1=C2=C3=0`, `C4=1`, the
claimed output at index 0 is `0`, but the code returns `polyF 1 ≠ 0`. -/
theorem FMpar_not_pointwise :
    (FMpar [1, 6] 0 0 0 1 5 1).getD 0 0 = polyF 1 ∧
    (FMpointwise [1, 6] 0 0 0 1 5 1).getD 0 0 = 0 ∧
    polyF 1 ≠ 0 := by
  refine ⟨?_, ?_, ?_⟩
  · norm_num [FMpar, List.range_succ]
  · norm_num [FMpointwise, Dterm]
  · norm_num [polyF]

/-- Claim C7: `FMpar` and `getImCoord` are deterministic pure functions —
two runs on equal inputs produce equal outputs.  Both are embedded as
state-free Lean functions of their arguments alone (faithfully to the
source, which reads and writes no global state), so a second run on the
same input is literally the same value. -/
theorem FMpar_getImCoord_deterministic :
    (∀ (x : List ℚ) (c1 c2 c3 c4 xo gamma : ℚ),
      FMpar x c1 c2 c3 c4 xo gamma = FMpar x c1 c2 c3 c4 xo gamma) ∧
    (∀ cRA cDec RA1 RAf Dec1 Decf imW imH extW extH : ℚ,
      getImCoord cRA cDec RA1 RAf Dec1 Decf imW imH extW extH =
        getImCoord cRA cDec RA1 RAf Dec1 Decf imW imH extW extH) :=
  ⟨fun _ _ _ _ _ _ _ => rfl, fun _ _ _ _ _ _ _ _ _ _ => rfl⟩

/-- Claim C2: for `RA1 ≠ RAf` and `Dec1 ≠ Decf`, the two coordinates
returned by `getImCoord` lie on the unique lines through the two
reference points of each axis: RA maps `RA1 ↦ -imW/2` and
`RAf ↦ extW - imW/2`; Dec (inverted axis) maps `Dec1 ↦ extH - imH/2`
and `Decf ↦ -imH/2`; each line is evaluated at the query coordinate. -/
theorem getImCoord_on_lines (coordRA coordDec RA1 RAf Dec1 Decf imW imH extW extH : ℚ)
    (hRA : RA1 ≠ RAf) (hDec : Dec1 ≠ Decf) :
    (getImCoord coordRA coordDec RA1 RAf Dec1 Decf imW imH extW extH).1 =
      lineThrough RA1 (-imW / 2) RAf (extW - imW / 2) coordRA ∧
    (getImCoord coordRA coordDec RA1 RAf Dec1 Decf imW imH extW extH).2 =
      lineThrough Dec1 (extH - imH / 2) Decf (-imH / 2) coordDec := by
  have hra : RA1 - RAf ≠ 0 := sub_ne_zero.mpr hRA
  have hdec : Dec1 - Decf ≠ 0 := sub_ne_zero.mpr hDec
  have hra2 : 2 * (RA1 ^ 2 + RAf ^ 2) - (RA1 + RAf) ^ 2 ≠ 0 := by
    rw [show 2 * (RA1 ^ 2 + RAf ^ 2) - (RA1 + RAf) ^ 2 = (RA1 - RAf) ^ 2 from by ring]
    exact pow_ne_zero 2 hra
  have hdec2 : 2 * (Dec1 ^ 2 + Decf ^ 2) - (Dec1 + Decf) ^ 2 ≠ 0 := by
    rw [show 2 * (Dec1 ^ 2 + Decf ^ 2) - (Dec1 + Decf) ^ 2 = (Dec1 - Decf) ^ 2 from by ring]
    exact pow_ne_zero 2 hdec
  have hra' : RAf - RA1 ≠ 0 := sub_ne_zero.mpr (Ne.symm hRA)
  have hdec' : Decf - Dec1 ≠ 0 := sub_ne_zero.mpr (Ne.symm hDec)
  constructor
  · simp only [getImCoord, polyfit1, lineThrough]
    field_simp
    ring
  · simp only [getImCoord, polyfit1, lineThrough]
    field_simp
    ring

/-- Witness for `getImCoord_on_lines` at the concrete input
`RA1 = 0, RAf = 1, Dec1 = 0, Decf = 1`, query point `(2, 3)`,
image 2×4 inside a 6×12 canvas. -/
theorem getImCoord_on_lines_witness :
    ((0 : ℚ) ≠ 1 ∧ (0 : ℚ) ≠ 1) ∧
    ((getImCoord 2 3 0 1 0 1 2 4 6 12).1 = lineThrough 0 (-2 / 2) 1 (6 - 2 / 2) 2 ∧
     (getImCoord 2 3 0 1 0 1 2 4 6 12).2 = lineThrough 0 (12 - 4 / 2) 1 (-4 / 2) 3) :=
  ⟨⟨by decide, by decide⟩,
    getImCoord_on_lines 2 3 0 1 0 1 2 4 6 12 (by decide) (by decide)⟩

/-- Claim C6: the image spans are independent of the reference pixel —
`RAf - RA1 = naxis1*cdelt1/cosv` and `Decf - Dec1 = naxis2*cdelt2`,
expressions free of `crpix1`/`crpix2` — and the reference value of each
axis sits `(crpix1-1)*cdelt1/cosv` (resp. `(crpix2-1)*cdelt2`) above the
lower limit, where `cosv = cos(crval2*2*pi/360) ≠ 0`. -/
theorem coordinate_limits_spec (crval1 crval2 crpix1 crpix2 cdelt1 cdelt2 naxis1 naxis2 cosv : ℚ)
    (hcos : cosv ≠ 0) :
    RAf_of crval1 crpix1 cdelt1 naxis1 cosv - RA1_of crval1 crpix1 cdelt1 cosv =
      naxis1 * cdelt1 / cosv ∧
    Decf_of crval2 crpix2 cdelt2 naxis2 - Dec1_of crval2 crpix2 cdelt2 =
      naxis2 * cdelt2 ∧
    crval1 - RA1_of crval1 crpix1 cdelt1 cosv = (crpix1 - 1) * cdelt1 / cosv ∧
    crval2 - Dec1_of crval2 crpix2 cdelt2 = (crpix2 - 1) * cdelt2 := by
  refine ⟨?_, by simp [Decf_of, Dec1_of]; ring, by simp [RA1_of], by simp [Dec1_of]⟩
  simp only [RAf_of, RA1_of]
  field_simp
  ring

/-- Witness for `coordinate_limits_spec` with
`crval1 = 10, crval2 = 20, crpix1 = 3, crpix2 = 4, cdelt1 = 2,
cdelt2 = 5, naxis1 = 7, naxis2 = 9, cosv = 1`. -/
theorem coordinate_limits_spec_witness :
    (1 : ℚ) ≠ 0 ∧
    (RAf_of 10 3 2 7 1 - RA1_of 10 3 2 1 = 7 * 2 / 1 ∧
     Decf_of 20 4 5 9 - Dec1_of 20 4 5 = 9 * 5 ∧
     10 - RA1_of 10 3 2 1 = (3 - 1) * 2 / 1 ∧
     20 - Dec1_of 20 4 5 = (4 - 1) * 5) :=
  ⟨by decide, coordinate_limits_spec 10 20 3 4 2 5 7 9 1 (by decide)⟩

/-- Helper: `getD` of a mapped list, when the requested default is the
image of a default under the mapped function. -/
theorem getD_map_fn {α β : Type} (f : α → β) (d : α) (l : List α) (i : ℕ) :
    (l.map f).getD i (f d) = f (l.getD i d) := by
  induction l generalizing i with
  | nil => simp
  | cons x xs ih => cases i <;> simp [ih]

/-- Claim C9: the masked assignment `fits_img[np.isnan(fits_img)] = 0.0`
has the frame property — shape is preserved, every cell that was NaN is
`0.0` afterwards, every other cell is unchanged, and no NaN remains. -/
theorem scrubNaN_frame (img : List (List PyFloat)) :
    (scrubNaN img).length = img.length ∧
    (∀ i, ((scrubNaN img).getD i []).length = (img.getD i []).length) ∧
    (∀ i j, ((scrubNaN img).getD i []).getD j (PyFloat.val 0) =
      if isnan ((img.getD i []).getD j (PyFloat.val 0)) then PyFloat.val 0
      else (img.getD i []).getD j (PyFloat.val 0)) ∧
    (∀ row ∈ scrubNaN img, ∀ v ∈ row, isnan v = false) := by
  have hrow : ∀ i, (scrubNaN img).getD i [] = (img.getD i []).map scrub1 := by
    intro i
    have h := getD_map_fn (fun row : List PyFloat => row.map scrub1) [] img i
    simpa [scrubNaN] using h
  have hcell : ∀ (row : List PyFloat) (j : ℕ),
      (row.map scrub1).getD j (PyFloat.val 0) = scrub1 (row.getD j (PyFloat.val 0)) := by
    intro row j
    have h := getD_map_fn scrub1 (PyFloat.val 0) row j
    simpa [scrub1, isnan] using h
  refine ⟨by simp [scrubNaN], fun i => by rw [hrow i]; simp, fun i j => ?_, ?_⟩
  · rw [hrow i, hcell]
    rfl
  · intro row hr v hv
    simp only [scrubNaN, List.mem_map] at hr
    obtain ⟨r0, _, rfl⟩ := hr
    simp only [List.mem_map] at hv
    obtain ⟨v0, _, rfl⟩ := hv
    cases v0 <;> simp [scrub1, isnan]

/-- Claim C5: `saveArray` performs a faithful write/read round trip
(with exact serialization): re-reading the file written from `array`
yields `array` itself, and the call leaves `array` unchanged. -/
theorem saveArray_roundtrip (array : List ℚ) :
    (saveArray array).1 = array ∧ (saveArray array).2 = array := by
  refine ⟨?_, rfl⟩
  simp only [saveArray, np_loadtxt, np_savetxt, List.map_map]
  have h : ∀ q : ℚ, ((q.num : ℚ) / (q.den : ℚ)) = q := Rat.num_div_den
  simp [Function.comp_def, h]

/-- Helper: `pysplit` never returns the empty list of fragments. -/
theorem pysplit_ne_nil (sep : Char) (s : List Char) : pysplit sep s ≠ [] := by
  cases s with
  | nil => simp [pysplit]
  | cons c rest =>
    simp only [pysplit]
    cases h : pysplit sep rest with
    | nil => simp
    | cons g gs => by_cases hc : c = sep <;> simp [hc]

/-- Helper: splitting distributes over an occurrence of the separator. -/
theorem pysplit_append (sep : Char) (a b : List Char) :
    pysplit sep (a ++ sep :: b) = pysplit sep a ++ pysplit sep b := by
  induction a with
  | nil =>
    obtain ⟨g, gs, hg⟩ := List.exists_cons_of_ne_nil (pysplit_ne_nil sep b)
    simp only [List.nil_append, pysplit, hg]
    simp
  | cons c a ih =>
    obtain ⟨g, gs, hg⟩ := List.exists_cons_of_ne_nil (pysplit_ne_nil sep a)
    simp only [List.cons_append, pysplit, List.append_eq, ih, hg]
    by_cases hc : c = sep <;> simp [hc]

/-- Helper: a fragment without the separator is left whole. -/
theorem pysplit_not_mem (sep : Char) (t : List Char) (h : sep ∉ t) :
    pysplit sep t = [t] := by
  induction t with
  | nil => rfl
  | cons c r ih =>
    simp only [List.mem_cons, not_or] at h
    have hcs : ¬c = sep := fun hc => h.1 hc.symm
    simp [pysplit, ih h.2, hcs]

/-- Helper: joining undoes splitting. -/
theorem pyjoin_pysplit (sep : Char) (s : List Char) :
    pyjoin sep (pysplit sep s) = s := by
  induction s with
  | nil => rfl
  | cons c r ih =>
    obtain ⟨g, gs, hg⟩ := List.exists_cons_of_ne_nil (pysplit_ne_nil sep r)
    rw [hg] at ih
    simp only [pysplit, hg]
    by_cases hc : c = sep
    · simp [hc, pyjoin, ih]
    · cases gs with
      | nil => simpa [pyjoin, hc] using ih
      | cons g2 gs2 => simpa [pyjoin, hc] using ih

/-- Helper: a string containing `sep` splits around the LAST occurrence. -/
theorem exists_last_sep (sep : Char) (s : List Char) (h : sep ∈ s) :
    ∃ p t, s = p ++ sep :: t ∧ sep ∉ t := by
  induction s with
  | nil => cases h
  | cons c r ih =>
    by_cases hr : sep ∈ r
    · obtain ⟨p, t, h1, h2⟩ := ih hr
      exact ⟨c :: p, t, by rw [h1]; rfl, h2⟩
    · have hc : sep = c := by
        rcases List.mem_cons.mp h with h1 | h2
        · exact h1
        · exact absurd h2 hr
      exact ⟨[], r, by rw [hc, List.nil_append], hr⟩

/-- Helper: `dropWhile` skips over a block that wholly satisfies `p`. -/
theorem dropWhile_append_all {α : Type} (p : α → Bool) (a b : List α)
    (ha : ∀ x ∈ a, p x = true) : (a ++ b).dropWhile p = b.dropWhile p := by
  induction a with
  | nil => rfl
  | cons x xs ih =>
    have hx := ha x (List.mem_cons_self x xs)
    simp only [List.cons_append, List.dropWhile_cons, hx, if_true]
    exact ih (fun y hy => ha y (List.mem_cons_of_mem x hy))

/-- Helper: `upToLastSep` on an explicit last-occurrence decomposition. -/
theorem upToLastSep_eq (sep : Char) (p t : List Char) (h : sep ∉ t) :
    upToLastSep sep (p ++ sep :: t) = p := by
  simp only [upToLastSep, List.reverse_append, List.reverse_cons, List.append_assoc,
    List.singleton_append]
  rw [dropWhile_append_all _ t.reverse _ (fun x hx => by
    simp only [decide_eq_true_eq]
    intro hxsep
    exact h (hxsep ▸ List.mem_reverse.mp hx))]
  simp [List.dropWhile_cons]

/-- Claim C10: on a filename containing an underscore,
`str.join('_', filename.split('_')[0:-1])` is the prefix of the filename
up to but excluding its last underscore, and re-appending an underscore
plus the final underscore-separated token reconstructs the filename. -/
theorem split_rejoin_roundtrip (s : List Char) (h : '_' ∈ s) :
    pyjoin '_' ((pysplit '_' s).dropLast) = upToLastSep '_' s ∧
    pyjoin '_' ((pysplit '_' s).dropLast) ++ '_' :: (pysplit '_' s).getLastD [] = s := by
  obtain ⟨p, t, rfl, hnt⟩ := exists_last_sep '_' s h
  rw [pysplit_append, pysplit_not_mem _ _ hnt, List.dropLast_concat,
    pyjoin_pysplit, upToLastSep_eq _ _ _ hnt]
  refine ⟨rfl, ?_⟩
  rw [List.getLastD_concat]

/-- Witness for `split_rejoin_roundtrip` on the concrete filename
`"jw_x1d"`. -/
theorem split_rejoin_roundtrip_witness :
    ('_' ∈ ['j', 'w', '_', 'x', '1', 'd']) ∧
    (pyjoin '_' ((pysplit '_' ['j', 'w', '_', 'x', '1', 'd']).dropLast) =
        upToLastSep '_' ['j', 'w', '_', 'x', '1', 'd'] ∧
      pyjoin '_' ((pysplit '_' ['j', 'w', '_', 'x', '1', 'd']).dropLast) ++
          '_' :: (pysplit '_' ['j', 'w', '_', 'x', '1', 'd']).getLastD [] =
        ['j', 'w', '_', 'x', '1', 'd']) :=
  ⟨by decide, split_rejoin_roundtrip ['j', 'w', '_', 'x', '1', 'd'] (by decide)⟩

/-- Claim C4: the pipeline sort-by-qmin, reverse, then drop masked rows
returns exactly the input rows whose `qmin` is measured (a permutation
of that row set) arranged in non-increasing `qmin` order — i.e.
sort-then-reverse is a descending sort and the mask filter preserves the
arrangement. -/
theorem eclipsePipeline_spec {α : Type} (rows : List (Option ℚ × α)) :
    (eclipsePipeline rows).Perm (rows.filter (fun r => r.1.isSome)) ∧
    (eclipsePipeline rows).Pairwise (fun a b => qkey b.1 ≤ qkey a.1) := by
  constructor
  · have h1 : (sortByQmin rows).Perm rows := List.mergeSort_perm rows _
    exact (((sortByQmin rows).reverse_perm).trans h1).filter _
  · have hs : (sortByQmin rows).Pairwise
        (fun a b => decide (qkey a.1 ≤ qkey b.1) = true) := by
      refine List.sorted_mergeSort ?_ ?_ rows
      · intro a b c hab hbc
        simp only [decide_eq_true_eq] at hab hbc ⊢
        exact le_trans hab hbc
      · intro a b
        simp only [Bool.or_eq_true, decide_eq_true_eq]
        exact le_total (qkey a.1) (qkey b.1)
    have hs2 : (sortByQmin rows).Pairwise (fun a b => qkey a.1 ≤ qkey b.1) := by
      refine hs.imp ?_
      intro a b h
      simpa using h
    have hrev : ((sortByQmin rows).reverse).Pairwise (fun a b => qkey b.1 ≤ qkey a.1) :=
      List.pairwise_reverse.mpr hs2
    exact List.Pairwise.sublist (List.filter_sublist _) hrev

/-- Helper: selecting by a predicate on a parallel list through indices
equals filtering the zip of the two lists. -/
theorem zipSelect (p : ℚ → Bool) :
    ∀ (a b : List ℚ), a.length = b.length →
    ((List.range a.length).filter (fun i => p (b.getD i 0))).map (fun i => a.getD i 0)
      = ((a.zip b).filter (fun r => p r.2)).map Prod.fst := by
  intro a
  induction a with
  | nil =>
    intro b h
    simp
  | cons x a ih =>
    intro b h
    cases b with
    | nil => simp at h
    | cons y b =>
      have h2 : a.length = b.length := by simpa using h
      have e1 : ((fun i => p ((y :: b).getD i 0)) ∘ Nat.succ) = fun i => p (b.getD i 0) := by
        funext i
        simp
      have e2 : ((fun i => (x :: a).getD i 0) ∘ Nat.succ) = fun i => a.getD i 0 := by
        funext i
        simp
      rw [List.length_cons, List.range_succ_eq_map, List.zip_cons_cons, List.filter_cons,
        List.filter_cons, List.filter_map, e1]
      cases hp : p y
      · rw [if_neg (by simp [hp]), if_neg (by simp [hp]), List.map_map, e2, ih b h2]
      · rw [if_pos (by simp [hp]), if_pos (by simp [hp]), List.map_cons, List.map_map,
          e2, ih b h2]
        simp

/-- Helper: `np.delete` at the indices `np.where(b < 0)[0]` of a
parallel equal-length array keeps exactly the entries facing a
non-negative `b` entry. -/
theorem np_delete_where (a b : List ℚ) (h : a.length = b.length) :
    np_delete a (np_where_neg b)
      = ((a.zip b).filter (fun r => decide (0 ≤ r.2))).map Prod.fst := by
  have hc : ∀ i ∈ List.range a.length,
      decide (i ∉ np_where_neg b) = decide (0 ≤ b.getD i 0) := by
    intro i hi
    rw [List.mem_range] at hi
    apply decide_eq_decide.mpr
    simp only [np_where_neg, List.mem_filter, List.mem_range, decide_eq_true_eq, not_and,
      not_lt]
    constructor
    · intro hni
      exact hni (h ▸ hi)
    · intro hge _
      exact hge
  unfold np_delete
  rw [List.filter_congr hc]
  exact zipSelect (fun q => decide (0 ≤ q)) a b h

/-- Helper: deleting at the negative positions of a projected column,
when both arrays are projections of one row list, filters the rows. -/
theorem np_delete_map_where {α : Type} (RK : List α) (f g : α → ℚ) :
    np_delete (RK.map f) (np_where_neg (RK.map g))
      = (RK.filter (fun r => decide (0 ≤ g r))).map f := by
  rw [np_delete_where _ _ (by simp), List.zip_map', List.filter_map, List.map_map]
  rfl

/-- Helper: `changeNaN` on four projections of one row list filters the
rows on both flux projections being non-negative. -/
theorem changeNaN_maps {α : Type} (R : List α) (f1 f2 f3 f4 : α → ℚ) :
    changeNaN (R.map f1) (R.map f2) (R.map f3) (R.map f4)
      = ((R.filter (fun r => decide (0 ≤ f2 r) && decide (0 ≤ f4 r))).map f1,
         (R.filter (fun r => decide (0 ≤ f2 r) && decide (0 ≤ f4 r))).map f2,
         (R.filter (fun r => decide (0 ≤ f2 r) && decide (0 ≤ f4 r))).map f3,
         (R.filter (fun r => decide (0 ≤ f2 r) && decide (0 ≤ f4 r))).map f4) := by
  unfold changeNaN
  dsimp only
  rw [np_delete_map_where R f1 f2, np_delete_map_where R f2 f2, np_delete_map_where R f3 f2,
    np_delete_map_where R f4 f2]
  rw [np_delete_map_where _ f1 f4, np_delete_map_where _ f2 f4, np_delete_map_where _ f3 f4,
    np_delete_map_where _ f4 f4]
  simp only [List.filter_filter]
  rw [List.filter_congr (fun a _ => Bool.and_comm (decide (0 ≤ f4 a)) (decide (0 ≤ f2 a)))]

/-- Claim C3: `changeNaN` keeps exactly the rows whose two flux entries
are both non-negative, in their original order (so the four outputs have
equal length and neither output flux array has a negative entry). -/
theorem changeNaN_spec (wavv fluxx wavv1 fluxx1 : List ℚ)
    (hw : wavv.length = fluxx.length) (hw1 : wavv1.length = fluxx.length)
    (hf1 : fluxx1.length = fluxx.length) :
    changeNaN wavv fluxx wavv1 fluxx1 =
      ((keptRows wavv fluxx wavv1 fluxx1).map (fun r => r.1),
       (keptRows wavv fluxx wavv1 fluxx1).map (fun r => r.2.1),
       (keptRows wavv fluxx wavv1 fluxx1).map (fun r => r.2.2.1),
       (keptRows wavv fluxx wavv1 fluxx1).map (fun r => r.2.2.2)) ∧
    ((changeNaN wavv fluxx wavv1 fluxx1).1.length
        = (changeNaN wavv fluxx wavv1 fluxx1).2.2.2.length ∧
      (changeNaN wavv fluxx wavv1 fluxx1).2.1.length
        = (changeNaN wavv fluxx wavv1 fluxx1).2.2.2.length ∧
      (changeNaN wavv fluxx wavv1 fluxx1).2.2.1.length
        = (changeNaN wavv fluxx wavv1 fluxx1).2.2.2.length) ∧
    (∀ q ∈ (changeNaN wavv fluxx wavv1 fluxx1).2.1, 0 ≤ q) ∧
    (∀ q ∈ (changeNaN wavv fluxx wavv1 fluxx1).2.2.2, 0 ≤ q) := by
  have hz1 : (wavv1.zip fluxx1).length = fluxx.length := by
    simp [List.length_zip, hw1, hf1]
  have hz2 : (fluxx.zip (wavv1.zip fluxx1)).length = fluxx.length := by
    simp [List.length_zip, hz1]
  have p1 : (wavv.zip (fluxx.zip (wavv1.zip fluxx1))).map
      (fun r => r.1) = wavv :=
    List.map_fst_zip _ _ (by rw [hz2, hw])
  have hsnd : (wavv.zip (fluxx.zip (wavv1.zip fluxx1))).map
      (fun r => r.2) = fluxx.zip (wavv1.zip fluxx1) :=
    List.map_snd_zip _ _ (by rw [hz2, hw])
  have p2 : (wavv.zip (fluxx.zip (wavv1.zip fluxx1))).map
      (fun r => r.2.1) = fluxx := by
    rw [show (fun r : ℚ × ℚ × ℚ × ℚ => r.2.1)
      = ((fun s : ℚ × ℚ × ℚ => s.1) ∘ (fun r : ℚ × ℚ × ℚ × ℚ => r.2)) from rfl]
    rw [← List.map_map, hsnd]
    exact List.map_fst_zip _ _ (by rw [hz1])
  have hsnd2 : (fluxx.zip (wavv1.zip fluxx1)).map
      (fun s : ℚ × ℚ × ℚ => s.2) = wavv1.zip fluxx1 :=
    List.map_snd_zip _ _ (by rw [hz1])
  have p3 : (wavv.zip (fluxx.zip (wavv1.zip fluxx1))).map
      (fun r => r.2.2.1) = wavv1 := by
    rw [show (fun r : ℚ × ℚ × ℚ × ℚ => r.2.2.1)
      = ((fun u : ℚ × ℚ => u.1) ∘ (fun s : ℚ × ℚ × ℚ => s.2) ∘
          (fun r : ℚ × ℚ × ℚ × ℚ => r.2)) from rfl]
    rw [← List.map_map, ← List.map_map, hsnd, hsnd2]
    exact List.map_fst_zip _ _ (by rw [hw1, ← hf1])
  have p4 : (wavv.zip (fluxx.zip (wavv1.zip fluxx1))).map
      (fun r => r.2.2.2) = fluxx1 := by
    rw [show (fun r : ℚ × ℚ × ℚ × ℚ => r.2.2.2)
      = ((fun u : ℚ × ℚ => u.2) ∘ (fun s : ℚ × ℚ × ℚ => s.2) ∘
          (fun r : ℚ × ℚ × ℚ × ℚ => r.2)) from rfl]
    rw [← List.map_map, ← List.map_map, hsnd, hsnd2]
    exact List.map_snd_zip _ _ (by rw [hw1, ← hf1])
  have hmain := changeNaN_maps (wavv.zip (fluxx.zip (wavv1.zip fluxx1)))
    (fun r => r.1) (fun r => r.2.1) (fun r => r.2.2.1) (fun r => r.2.2.2)
  rw [p1, p2, p3, p4] at hmain
  have hkept : keptRows wavv fluxx wavv1 fluxx1
      = (wavv.zip (fluxx.zip (wavv1.zip fluxx1))).filter
          (fun r => decide (0 ≤ r.2.1) && decide (0 ≤ r.2.2.2)) := rfl
  refine ⟨by rw [hkept]; exact hmain, ?_, ?_, ?_⟩
  · rw [hmain]
    simp
  · rw [hmain]
    intro q hq
    simp only [List.mem_map, List.mem_filter, Bool.and_eq_true, decide_eq_true_eq] at hq
    obtain ⟨r, ⟨_, hr2, _⟩, rfl⟩ := hq
    exact hr2
  · rw [hmain]
    intro q hq
    simp only [List.mem_map, List.mem_filter, Bool.and_eq_true, decide_eq_true_eq] at hq
    obtain ⟨r, ⟨_, _, hr4⟩, rfl⟩ := hq
    exact hr4

/-- Witness for `changeNaN_spec` on the concrete arrays
`wavv = [1,2,3]`, `fluxx = [5,-1,2]`, `wavv1 = [4,5,6]`,
`fluxx1 = [-2,3,7]` (only the third row survives both flux filters). -/
theorem changeNaN_spec_witness :
    (([1, 2, 3] : List ℚ).length = ([5, -1, 2] : List ℚ).length ∧
      ([4, 5, 6] : List ℚ).length = ([5, -1, 2] : List ℚ).length ∧
      ([-2, 3, 7] : List ℚ).length = ([5, -1, 2] : List ℚ).length) ∧
    (changeNaN [1, 2, 3] [5, -1, 2] [4, 5, 6] [-2, 3, 7] =
      ((keptRows [1, 2, 3] [5, -1, 2] [4, 5, 6] [-2, 3, 7]).map (fun r => r.1),
       (keptRows [1, 2, 3] [5, -1, 2] [4, 5, 6] [-2, 3, 7]).map (fun r => r.2.1),
       (keptRows [1, 2, 3] [5, -1, 2] [4, 5, 6] [-2, 3, 7]).map (fun r => r.2.2.1),
       (keptRows [1, 2, 3] [5, -1, 2] [4, 5, 6] [-2, 3, 7]).map (fun r => r.2.2.2)) ∧
     ((changeNaN [1, 2, 3] [5, -1, 2] [4, 5, 6] [-2, 3, 7]).1.length
        = (changeNaN [1, 2, 3] [5, -1, 2] [4, 5, 6] [-2, 3, 7]).2.2.2.length ∧
      (changeNaN [1, 2, 3] [5, -1, 2] [4, 5, 6] [-2, 3, 7]).2.1.length
        = (changeNaN [1, 2, 3] [5, -1, 2] [4, 5, 6] [-2, 3, 7]).2.2.2.length ∧
      (changeNaN [1, 2, 3] [5, -1, 2] [4, 5, 6] [-2, 3, 7]).2.2.1.length
        = (changeNaN [1, 2, 3] [5, -1, 2] [4, 5, 6] [-2, 3, 7]).2.2.2.length) ∧
     (∀ q ∈ (changeNaN [1, 2, 3] [5, -1, 2] [4, 5, 6] [-2, 3, 7]).2.1, 0 ≤ q) ∧
     (∀ q ∈ (changeNaN [1, 2, 3] [5, -1, 2] [4, 5, 6] [-2, 3, 7]).2.2.2, 0 ≤ q)) :=
  ⟨⟨by simp, by simp, by simp⟩,
    changeNaN_spec [1, 2, 3] [5, -1, 2] [4, 5, 6] [-2, 3, 7]
      (by simp) (by simp) (by simp)⟩

/-- Helper: `getD` of a replicated list whose element is the default. -/
theorem getD_replicate_self {α : Type} (n i : ℕ) (x : α) :
    (List.replicate n x).getD i x = x := by
  induction n generalizing i with
  | zero => simp
  | succ m ih => cases i <;> simp [ih]

/-- Helper: in-range `getD` of a replicated list. -/
theorem getD_replicate_lt {α : Type} (n i : ℕ) (x d : α) (h : i < n) :
    (List.replicate n x).getD i d = x := by
  induction n generalizing i with
  | zero => omega
  | succ m ih =>
    cases i with
    | zero => simp
    | succ k =>
      simp only [List.replicate_succ, List.getD_cons_succ]
      exact ih k (by omega)

/-- Helper: in-range `getD` of a mapped list. -/
theorem getD_map_lt {α β : Type} (f : α → β) (l : List α) (k : ℕ) (d : β) (dd : α)
    (h : k < l.length) : (l.map f).getD k d = f (l.getD k dd) := by
  induction l generalizing k with
  | nil => simp at h
  | cons x xs ih =>
    cases k with
    | zero => simp
    | succ m =>
      simp only [List.map_cons, List.getD_cons_succ]
      exact ih m (by simpa using h)

/-- Helper: `zipWith` with an index list, when the function ignores the
index, is a `map`. -/
theorem zipWith_const_right {α β : Type} (g : α → β) :
    ∀ (l : List ℕ) (a : List α), a.length ≤ l.length →
      List.zipWith (fun _ x => g x) l a = a.map g := by
  intro l
  induction l with
  | nil =>
    intro a h
    cases a with
    | nil => simp
    | cons x xs => simp at h
  | cons j js ih =>
    intro a h
    cases a with
    | nil => simp
    | cons x xs =>
      simp only [List.zipWith_cons_cons, List.map_cons]
      rw [ih xs (by simpa using h)]

/-- Helper: inserting columns of zeros pads every row at `pos`. -/
theorem np_insert_cols_zeros (a : List (List ℚ)) (pos w c : ℕ) :
    np_insert_cols a pos (np_zeros w c)
      = a.map (fun row => row.take pos ++ List.replicate w (0 : ℚ) ++ row.drop pos) := by
  unfold np_insert_cols np_zeros
  have hfun : (fun (j : ℕ) (row : List ℚ) =>
        row.take pos ++ (List.replicate w (List.replicate c (0 : ℚ))).map
          (fun v => v.getD j 0) ++ row.drop pos)
      = fun (_ : ℕ) (row : List ℚ) =>
        row.take pos ++ List.replicate w (0 : ℚ) ++ row.drop pos := by
    funext j row
    rw [List.map_replicate, getD_replicate_self]
  rw [hfun]
  exact zipWith_const_right _ (List.range a.length) a (by simp)

/-- Helper: the canvas expansion, structurally — a band of zero rows, the
zero-padded image rows, and another band of zero rows. -/
theorem expandImage_struct (image : List (List ℚ))
    (hsq : ∀ row ∈ image, row.length = image.length) :
    expandImage image
      = np_zeros image.length (3 * image.length)
        ++ image.map (fun row => List.replicate image.length (0 : ℚ) ++ row
            ++ List.replicate image.length (0 : ℚ))
        ++ np_zeros image.length (3 * image.length) := by
  unfold expandImage
  dsimp only
  unfold np_append_rows np_insert_rows
  rw [np_insert_cols_zeros, np_insert_cols_zeros]
  simp only [List.take_zero, List.drop_zero, List.nil_append, List.map_map]
  unfold np_zeros
  rw [List.map_append, List.map_append]
  have hz : ∀ r : List ℚ, r.length = image.length →
      ((fun row => row.take (2 * image.length) ++ List.replicate image.length (0 : ℚ)
          ++ row.drop (2 * image.length)) ∘
        (fun row => List.replicate image.length (0 : ℚ) ++ row)) r
      = List.replicate image.length (0 : ℚ) ++ r ++ List.replicate image.length 0 := by
    intro r hr
    simp only [Function.comp_apply]
    rw [List.take_of_length_le (by simp [hr]; omega),
      List.drop_eq_nil_of_le (by simp [hr]; omega), List.append_nil, List.append_assoc]
  have hzz : (List.replicate image.length (List.replicate image.length (0 : ℚ))).map
      ((fun row => row.take (2 * image.length) ++ List.replicate image.length (0 : ℚ)
          ++ row.drop (2 * image.length)) ∘
        (fun row => List.replicate image.length (0 : ℚ) ++ row))
      = List.replicate image.length (List.replicate (3 * image.length) (0 : ℚ)) := by
    rw [List.map_replicate]
    congr 1
    rw [hz _ (by simp)]
    rw [show 3 * image.length = image.length + (image.length + image.length) from by ring,
      List.replicate_add, List.replicate_add, ← List.append_assoc]
  rw [← List.append_assoc]
  simp only [hzz]
  rw [List.map_congr_left (fun row hrow => hz row (hsq row hrow))]

/-- Claim C8: on a square `w`-by-`w` image, the append/insert sequence
builds a `3w`-by-`3w` canvas whose central `w`-by-`w` block
(rows `w..2w-1`, columns `w..2w-1`) is the original image and whose
every other entry is zero.  (The embedding is purely functional, so the
input `image` itself is untouched by construction.) -/
theorem expandImage_spec (image : List (List ℚ))
    (hsq : ∀ row ∈ image, row.length = image.length) :
    (expandImage image).length = 3 * image.length ∧
    (∀ row ∈ expandImage image, row.length = 3 * image.length) ∧
    (∀ i j : ℕ, ((expandImage image).getD i []).getD j 0 =
      if image.length ≤ i ∧ i < 2 * image.length ∧
          image.length ≤ j ∧ j < 2 * image.length then
        (image.getD (i - image.length) []).getD (j - image.length) 0
      else 0) := by
  have hstruct := expandImage_struct image hsq
  unfold np_zeros at hstruct
  refine ⟨?_, ?_, ?_⟩
  · rw [hstruct]
    simp only [List.length_append, List.length_map, List.length_replicate]
    omega
  · intro row hrow
    rw [hstruct] at hrow
    simp only [List.mem_append, List.mem_map] at hrow
    rcases hrow with ((hz | hm) | hz)
    · rw [List.eq_of_mem_replicate hz]
      simp
    · obtain ⟨r, hr, rfl⟩ := hm
      simp only [List.length_append, List.length_replicate, hsq r hr]
      ring
    · rw [List.eq_of_mem_replicate hz]
      simp
  · intro i j
    rw [hstruct]
    by_cases hi1 : i < image.length
    · rw [List.getD_append _ _ _ i (by simp [List.length_append]; omega)]
      rw [List.getD_append _ _ _ i (by simp [List.length_replicate]; omega)]
      rw [getD_replicate_lt _ _ _ _ hi1, getD_replicate_self, if_neg (by omega)]
    · push_neg at hi1
      by_cases hi2 : i < 2 * image.length
      · rw [List.getD_append _ _ _ i (by simp [List.length_append]; omega)]
        rw [List.getD_append_right _ _ _ i (by simp [List.length_replicate]; omega)]
        simp only [List.length_replicate]
        have him : i - image.length < image.length := by omega
        rw [getD_map_lt _ _ _ _ ([] : List ℚ) him]
        have hrowmem : image.getD (i - image.length) [] ∈ image := by
          rw [List.getD_eq_getElem _ _ him]
          exact List.getElem_mem him
        have hrlen : (image.getD (i - image.length) []).length = image.length :=
          hsq _ hrowmem
        by_cases hj1 : j < image.length
        · rw [List.getD_append _ _ _ j (by simp [List.length_append, List.length_replicate]; omega)]
          rw [List.getD_append _ _ _ j (by simp [List.length_replicate]; omega)]
          rw [getD_replicate_lt _ _ _ _ hj1, if_neg (by omega)]
        · push_neg at hj1
          by_cases hj2 : j < 2 * image.length
          · rw [List.getD_append _ _ _ j
              (by rw [List.length_append, List.length_replicate, hrlen]; omega)]
            rw [List.getD_append_right _ _ _ j (by simp [List.length_replicate]; omega)]
            simp only [List.length_replicate]
            rw [if_pos ⟨hi1, hi2, hj1, hj2⟩]
          · push_neg at hj2
            rw [List.getD_append_right _ _ _ j
              (by rw [List.length_append, List.length_replicate, hrlen]; omega)]
            rw [getD_replicate_self, if_neg (by omega)]
      · push_neg at hi2
        rw [List.getD_append_right _ _ _ i
          (by simp [List.length_append, List.length_map, List.length_replicate]; omega)]
        simp only [List.length_append, List.length_map, List.length_replicate]
        by_cases hk : i - (image.length + image.length) < image.length
        · rw [getD_replicate_lt _ _ _ _ hk, getD_replicate_self, if_neg (by omega)]
        · have hout : (List.replicate image.length
              (List.replicate (3 * image.length) (0 : ℚ))).getD
                (i - (image.length + image.length)) [] = [] :=
            List.getD_eq_default _ _ (by simp [List.length_replicate]; omega)
          rw [hout, List.getD_nil, if_neg (by omega)]

/-- Witness for `expandImage_spec` on the concrete 2×2 image
`[[1, 2], [3, 4]]`. -/
theorem expandImage_spec_witness :
    (∀ row ∈ ([[1, 2], [3, 4]] : List (List ℚ)),
        row.length = ([[1, 2], [3, 4]] : List (List ℚ)).length) ∧
    ((expandImage [[1, 2], [3, 4]]).length
        = 3 * ([[1, 2], [3, 4]] : List (List ℚ)).length ∧
      (∀ row ∈ expandImage [[1, 2], [3, 4]],
        row.length = 3 * ([[1, 2], [3, 4]] : List (List ℚ)).length) ∧
      (∀ i j : ℕ, ((expandImage [[1, 2], [3, 4]]).getD i []).getD j 0 =
        if ([[1, 2], [3, 4]] : List (List ℚ)).length ≤ i ∧
            i < 2 * ([[1, 2], [3, 4]] : List (List ℚ)).length ∧
            ([[1, 2], [3, 4]] : List (List ℚ)).length ≤ j ∧
            j < 2 * ([[1, 2], [3, 4]] : List (List ℚ)).length then
          (([[1, 2], [3, 4]] : List (List ℚ)).getD
              (i - ([[1, 2], [3, 4]] : List (List ℚ)).length) []).getD
            (j - ([[1, 2], [3, 4]] : List (List ℚ)).length) 0
        else 0)) :=
  ⟨by decide, expandImage_spec [[1, 2], [3, 4]] (by decide)⟩
